import Mathlib

/-!
Verification development for the Online Matrix Sketch recommender
(`src/core/online_sketch.py`).

The model is shallowly embedded as follows.

* Machine floats are modelled by exact scalars: the structural, purely
  bookkeeping parts (entity registration, the growth of the projection
  matrix `R` and of the item feature store `i_mat`) are generic in the
  scalar type `α` and are instantiated at `ℚ` so that concrete runs can be
  evaluated by `decide`; the metric parts of the update and of scoring
  (L2 norms, the Frequent-Directions shrink) live over `ℝ`.
* `numpy` column/row insertion `concatenate((M[:, :off], col, M[:, off:]))`
  is `insertAt`: `take`/`drop` clamp out-of-range offsets exactly like
  numpy slices do.
* A matrix that the source grows dynamically (`R`, `i_mat`) is a list of
  its columns; a fixed-size matrix handled by dense linear algebra
  (`B`, `U` in the update step) is a Mathlib `Matrix`.
* Python dict accesses `d['key']` that can raise `KeyError` are modelled
  by `Option` fields of `RawEvent`; mutations of `self` that have already
  happened when an access raises are kept, so `checkEvent` returns the
  (possibly partially mutated) state together with an optional error,
  mirroring the in-place mutation semantics of `_Base__check`.
* The SVD called inside `_Base__update` is a library routine; theorems
  about the shrink step take its outputs `U, s, V` as data constrained by
  the exact hypotheses the reduced SVD of a `k × ℓ` matrix guarantees
  (`Uᵀ * U = 1`, `V * Vᵀ = 1`, `B = U * diagonal s * V`, `s` sorted
  non-increasing and non-negative).
-/

open Matrix

/-- Context-block sizes handed to the constructor
(`OnlineSketch.__init__(contexts)`); the dict has keys
`user`, `others`, `item`. -/
structure Contexts where
  user : ℕ
  others : ℕ
  item : ℕ
  deriving DecidableEq

/-- A raw streaming event as seen by `_Base__check`: a Python dict that may
be missing fields.  `none` models an absent key (access raises `KeyError`). -/
structure RawEvent (α : Type) where
  u_index : Option ℕ
  i_index : Option ℕ
  user : Option (List α)
  others : Option (List α)
  item : Option (List α)
  deriving DecidableEq

/-- A complete event as consumed by `_Base__update` / `_Base__recommend`,
with all fields present. -/
structure FullEvent (α : Type) where
  u_index : ℕ
  i_index : ℕ
  user : List α
  others : List α
  item : List α
  deriving DecidableEq

/-- The mutable model state of `OnlineSketch`.  `R` and `i_mat` are lists of
columns (they are grown by column insertion); `users` / `items` are the key
sets of the registration dicts in insertion order; `B` is kept abstractly as
a list of columns here (the update-step theorems use `Matrix` directly);
`U` is `none` until the first `_Base__update` assigns `self.U`. -/
structure ModelState (α : Type) where
  n_user : ℕ
  users : List ℕ
  n_item : ℕ
  items : List ℕ
  p : ℕ
  R : List (List α)
  i_mat : List (List α)
  B : List (List α)
  U : Option (List (List α))
  deriving DecidableEq

/-- `numpy.concatenate((xs[:pos], [x], xs[pos:]))`: insert `x` at position
`pos`; `take`/`drop` clamp exactly like numpy slices, so an offset past the
end appends. -/
def insertAt {β : Type} (xs : List β) (pos : ℕ) (x : β) : List β :=
  xs.take pos ++ [x] ++ xs.drop pos

/-- The fresh state built by `_Base__clear` (also run by the constructor):
counters zero, empty registries, `p` the sum of the declared context sizes,
`B` the `k × ℓ` zero matrix, no basis `U` yet.  The random
`R ~ N(0, 1/k)^{k×p}` draw is the parameter `R0` (a list of `p` columns of
length `kk`). -/
def clearState {α : Type} [Zero α] (ctx : Contexts) (kk ell : ℕ)
    (R0 : List (List α)) : ModelState α :=
  { n_user := 0
    users := []
    n_item := 0
    items := []
    p := ctx.user + ctx.others + ctx.item
    R := R0
    i_mat := []
    B := List.replicate ell (List.replicate kk 0)
    U := none }

/-- Sketch projection width `k = 40` from `OnlineSketch.__init__`. -/
def kDim : ℕ := 40

/-- Sketch rank `ℓ = int(np.sqrt(k)) = 6` from `OnlineSketch.__init__`. -/
def ellDim : ℕ := Nat.sqrt kDim

/-- Errors `_Base__check` can raise (Python `KeyError` on the named dict
access), in the order the accesses occur in the source. -/
inductive RegError where
  | missingUserKey
  | missingItemKey
  | missingItemVec
  deriving DecidableEq

/-- The user branch of `_Base__check`: on an unseen user key, append it to
the registry, bump `n_user` and `p`, and insert a fresh random column into
`R` at offset `self.n_user - 1` (evaluated after the increment, i.e. the old
`n_user`).  No-op when the key is registered. -/
def registerUser {α : Type} (S : ModelState α) (u : ℕ) (colU : List α) :
    ModelState α :=
  if u ∈ S.users then S
  else
    { S with
      users := S.users ++ [u]
      n_user := S.n_user + 1
      p := S.p + 1
      R := insertAt S.R S.n_user colU }

/-- The item-branch mutations of `_Base__check` that happen before
`d['item']` is read: register the key, bump `n_item` and `p`. -/
def registerItemCore {α : Type} (S : ModelState α) (i : ℕ) : ModelState α :=
  { S with
    items := S.items ++ [i]
    n_item := S.n_item + 1
    p := S.p + 1 }

/-- Models the guard `self.i_mat.size == 0`.  For scipy sparse matrices
`.size` is the stored-entry count: it is `0` for the initial
`sp.csr_matrix([])` (empty column list here), and — after at least two items
have been registered, when `i_mat` has been converted to CSR — when every
entry is zero.  After exactly one registration `i_mat` is the dense
`numpy` column `i_vec`, whose `.size` is its element count, never `0`. -/
def imatSizeZero {α : Type} [Zero α] [DecidableEq α]
    (m : List (List α)) : Bool :=
  m.isEmpty || (decide (2 ≤ m.length) &&
    m.all fun c => c.all fun x => decide (x = 0))

/-- The rest of the item branch of `_Base__check`, run once `d['item']` has
been read successfully.  `i_vec = append(zeros(n_item), d['item'])` (the
identity block comes first and is left all-zero); on the first item `i_mat`
becomes that single column, otherwise a zero row is inserted at position
`n_item - 1` of every existing column and `i_vec` is appended as a new
column; finally a fresh random column is inserted into `R` at offset
`n_user + contexts['user'] + contexts['others'] + n_item - 1`.  `S` is the
state after `registerItemCore`, so `S.n_item` is the incremented count,
matching the source's reads of `self.n_item`. -/
def registerItemVec {α : Type} [Zero α] [DecidableEq α] (ctx : Contexts)
    (S : ModelState α) (iv : List α) (colI : List α) : ModelState α :=
  let newcol := List.replicate S.n_item 0 ++ iv
  let im :=
    if imatSizeZero S.i_mat then [newcol]
    else (S.i_mat.map fun c => insertAt c (S.n_item - 1) 0) ++ [newcol]
  let off := S.n_user + ctx.user + ctx.others + S.n_item - 1
  { S with i_mat := im, R := insertAt S.R off colI }

/-- `_Base__check`, the registration operation.  Returns the state as
mutated up to the point of any `KeyError`, together with the error if one
was raised: `d['u_index']` is read before any mutation, `d['i_index']` only
after the whole user branch has run, and `d['item']` only after the item
registry, `n_item` and `p` have already been mutated. -/
def checkEvent {α : Type} [Zero α] [DecidableEq α] (ctx : Contexts)
    (S : ModelState α) (d : RawEvent α) (colU colI : List α) :
    ModelState α × Option RegError :=
  match d.u_index with
  | none => (S, some RegError.missingUserKey)
  | some u =>
    let S1 := registerUser S u colU
    match d.i_index with
    | none => (S1, some RegError.missingItemKey)
    | some i =>
      if i ∈ S1.items then (S1, none)
      else
        let S2 := registerItemCore S1 i
        match d.item with
        | none => (S2, some RegError.missingItemVec)
        | some iv => (registerItemVec ctx S2 iv colI, none)

/-- A sequence of registration calls: each element carries the event and the
two fresh random projection columns that call may draw. -/
def runRegs {α : Type} [Zero α] [DecidableEq α] (ctx : Contexts) :
    ModelState α → List (RawEvent α × List α × List α) → ModelState α
  | S, [] => S
  | S, e :: es => runRegs ctx (checkEvent ctx S e.1 e.2.1 e.2.2).1 es

/-- A registration event that raises no `KeyError`: the three dict keys
`_Base__check` reads are present. -/
def completeReg {α : Type} (d : RawEvent α) : Prop :=
  d.u_index.isSome ∧ d.i_index.isSome ∧ d.item.isSome

/-- A registration call whose event is complete and whose fresh projection
columns have the declared height `kk`. -/
def completeRegCols {α : Type} (kk : ℕ)
    (e : RawEvent α × List α × List α) : Prop :=
  completeReg e.1 ∧ e.2.1.length = kk ∧ e.2.2.length = kk

/-- Bookkeeping invariant of the registration subsystem: `R` has exactly `p`
columns, `p = p0 + n_user + n_item` with `p0` the declared context width,
and every column of `R` has height `kk`. -/
def RegInvariant {α : Type} (ctx : Contexts) (kk : ℕ)
    (S : ModelState α) : Prop :=
  S.R.length = S.p ∧
  S.p = ctx.user + ctx.others + ctx.item + S.n_user + S.n_item ∧
  ∀ c ∈ S.R, c.length = kk

/-- Shape invariant of the item feature store: every stored column is
`n_item` zeros (the identity block, which the source never sets to one)
followed by some context vector. -/
def imatShaped {α : Type} [Zero α] (S : ModelState α) : Prop :=
  ∀ c ∈ S.i_mat, ∃ v, c = List.replicate S.n_item 0 ++ v

/-- The full feature vector assembled by `_Base__update` (lines 75–81):
`u = append(zeros(n_user), d['user']); u[u_index] = 1`,
`i = append(zeros(n_item), d['item']); i[i_index] = 1`,
`y = concatenate((u, d['others'], i))`. -/
def assembleFeature {α : Type} [Zero α] [One α] (nUser uIdx : ℕ)
    (uCtx oCtx : List α) (nItem iIdx : ℕ) (iCtx : List α) : List α :=
  ((List.replicate nUser 0 ++ uCtx).set uIdx 1) ++ oCtx ++
    ((List.replicate nItem 0 ++ iCtx).set iIdx 1)

/-- Modelled from the spec: the feature layout the specification asserts
(§2 Feature Layout), `[user-identity][user-context][other-context]`
`[item-context][item-identity]` — stated only for comparison with
`assembleFeature`, which is translated from the source. -/
def specAssembleFeature {α : Type} [Zero α] [One α] (nUser uIdx : ℕ)
    (uCtx oCtx : List α) (nItem iIdx : ℕ) (iCtx : List α) : List α :=
  (List.replicate nUser 0).set uIdx 1 ++ uCtx ++ oCtx ++ iCtx ++
    (List.replicate nItem 0).set iIdx 1

/-- The user block built by `_Base__recommend` (lines 111–113):
`u = concatenate((zeros(n_user), d['user'], d['others'])); u[u_index] = 1`. -/
def recommendUserVec {α : Type} [Zero α] [One α] (nUser uIdx : ℕ)
    (uCtx oCtx : List α) : List α :=
  (List.replicate nUser 0 ++ uCtx ++ oCtx).set uIdx 1

/-- Squared L2 norm of a `k`-vector. -/
def l2normSq {n : ℕ} (y : Fin n → ℝ) : ℝ := ∑ i, y i ^ 2

/-- L2 norm of a `k`-vector, `ln.norm(y)`. -/
noncomputable def l2norm {n : ℕ} (y : Fin n → ℝ) : ℝ :=
  Real.sqrt (l2normSq y)

/-- `sklearn.preprocessing.normalize(y, norm='l2')` on a single vector:
vectors of norm zero are returned unchanged (sklearn substitutes `1` for a
zero norm before dividing), all others are scaled to unit norm. -/
noncomputable def l2normalize {n : ℕ} (y : Fin n → ℝ) : Fin n → ℝ :=
  if l2norm y = 0 then y else fun i => y i / l2norm y

/-- Lines 83–84 of `_Base__update`: `y = np.dot(self.R, y)` followed by
`preprocessing.normalize(..., norm='l2')` — the projected, normalized
observation written into a column of `B`. -/
noncomputable def projectNormalize {kk pn : ℕ} (R : Matrix (Fin kk) (Fin pn) ℝ)
    (x : Fin pn → ℝ) : Fin kk → ℝ :=
  l2normalize (R.mulVec x)

/-- The shrink step of `_Base__update` (lines 97–100): `delta = s[-1] ** 2`,
`s = np.sqrt(s ** 2 - delta)` — each retained singular value is replaced by
`sqrt(s_i² - s_last²)`. -/
noncomputable def shrunkSV {l : ℕ} (s : Fin (l + 1) → ℝ) : Fin (l + 1) → ℝ :=
  fun i => Real.sqrt (s i ^ 2 - s (Fin.last l) ^ 2)

/-- Line 102 of `_Base__update`: `self.B = np.dot(self.U, np.diag(s))` with
the shrunk singular values — the sketch immediately after the shrink step. -/
noncomputable def shrinkReconstruct {kk l : ℕ}
    (U : Matrix (Fin kk) (Fin (l + 1)) ℝ) (s : Fin (l + 1) → ℝ) :
    Matrix (Fin kk) (Fin (l + 1)) ℝ :=
  U * Matrix.diagonal (shrunkSV s)

/-- Squared Frobenius norm of a matrix. -/
def frobSq {m n : ℕ} (B : Matrix (Fin m) (Fin n) ℝ) : ℝ :=
  ∑ i, ∑ j, B i j ^ 2

/-- Column `j` of `B` is exactly zero.  The source tests columns with
`np.isclose(B, 0).all(0)`; an exactly-zero column in particular passes that
tolerance test, so existence of an exactly-zero column implies the
zero-column search succeeds. -/
def isZeroCol {m n : ℕ} (B : Matrix (Fin m) (Fin n) ℝ) (j : Fin n) : Prop :=
  ∀ i, B i j = 0

/-- The fallback of line 88 (`j = ... else self.ell - 1`) is taken exactly
when no column of `B` passes the zero test. -/
def fallbackUsed {m n : ℕ} (B : Matrix (Fin m) (Fin n) ℝ) : Prop :=
  ∀ j, ¬ isZeroCol B j

/-- Errors `_Base__recommend` can raise: `IndexError` from
`self.i_mat[:, target_i_indices]` when a target slot is out of range, and
`AttributeError` from reading `self.U` when no update has ever run. -/
inductive RecError where
  | indexError
  | noBasis
  deriving DecidableEq

/-- Line 104 of `_Base__recommend`: `i_mat[:, target_i_indices]` — select the
target columns of the item feature store; any index out of range raises
`IndexError` (slots are dense, so a slot is registered exactly when it is
smaller than the number of stored columns). -/
def selectCols {α : Type} (cols : List (List α)) :
    List ℕ → Except RecError (List (List α))
  | [] => Except.ok []
  | t :: ts =>
    if h : t < cols.length then
      match selectCols cols ts with
      | Except.error e => Except.error e
      | Except.ok rest => Except.ok (cols.get ⟨t, h⟩ :: rest)
    else Except.error RecError.indexError

/-- Pointwise sum of two columns (`zip` models numpy broadcasting over
matching shapes). -/
def addList (a b : List ℝ) : List ℝ := (a.zip b).map fun q => q.1 + q.2

/-- Pointwise difference of two columns. -/
def subList (a b : List ℝ) : List ℝ := (a.zip b).map fun q => q.1 - q.2

/-- Scale a column. -/
def scaleList (c : ℝ) (v : List ℝ) : List ℝ := v.map fun x => c * x

/-- Dot product of two columns. -/
def dotList (a b : List ℝ) : ℝ := ((a.zip b).map fun q => q.1 * q.2).sum

/-- `np.dot(R, x)` with `R` stored as a list of columns: the weighted sum of
the columns of `R` by the entries of `x`. -/
def matVecCols (cols : List (List ℝ)) (x : List ℝ) : List ℝ :=
  (cols.zip x).foldl (fun acc q => addList acc (scaleList q.2 q.1))
    (List.replicate (cols.headD []).length 0)

/-- `ln.norm(v)` on a column. -/
noncomputable def l2normList (v : List ℝ) : ℝ :=
  Real.sqrt (v.map fun x => x ^ 2).sum

/-- `preprocessing.normalize(Y, norm='l2', axis=0)` on one column, with
sklearn's zero-norm guard. -/
noncomputable def l2normalizeList (v : List ℝ) : List ℝ :=
  if l2normList v = 0 then v else v.map fun x => x / l2normList v

/-- `np.dot(U, U.T) @ y` with the basis `U` stored as a list of its
orthonormal columns: `Σ_c ⟨c, y⟩ · c`. -/
def projOntoBasis (Ucols : List (List ℝ)) (y : List ℝ) : List ℝ :=
  Ucols.foldl (fun acc c => addList acc (scaleList (dotList c y) c))
    (List.replicate y.length 0)

/-- Line 121–122 of `_Base__recommend`:
`X = identity(k) - U·Uᵀ` applied to a projected candidate column. -/
def residualVec (Ucols : List (List ℝ)) (y : List ℝ) : List ℝ :=
  subList y (projOntoBasis Ucols y)

/-- Modelled from the spec: `_Base__scores2recos` lives in the missing
`core/base.py`; per §4.3 step 6 it ranks candidates by score, descending,
ties broken by stable original ordering, and returns the top `att` pairs
`(item slot, score)`.  Stable descending insertion. -/
noncomputable def insertDesc (x : ℕ × ℝ) : List (ℕ × ℝ) → List (ℕ × ℝ)
  | [] => [x]
  | y :: ys => if y.2 < x.2 then x :: y :: ys else y :: insertDesc x ys

/-- Modelled from the spec: stable descending sort by score (see
`insertDesc`). -/
noncomputable def sortDesc : List (ℕ × ℝ) → List (ℕ × ℝ)
  | [] => []
  | x :: xs => insertDesc x (sortDesc xs)

/-- Modelled from the spec: `_Base__scores2recos(scores, targets, at)` from
the missing `core/base.py` — pair each target slot with its score, sort by
score descending (stable), return the first `att`. -/
noncomputable def scores2recos (scores : List ℝ) (targets : List ℕ)
    (att : ℕ) : List (ℕ × ℝ) :=
  (sortDesc (targets.zip scores)).take att

/-- `_Base__recommend`: select the target columns of `i_mat` (raising on an
out-of-range slot), build the broadcast user block, stack it on top of each
item column, project through `R`, L2-normalize each column, read the basis
`self.U` (raising if no update has ever assigned it), score each candidate
by the norm of its residual against the basis, and rank. -/
noncomputable def recommend (S : ModelState ℝ) (d : FullEvent ℝ)
    (targets : List ℕ) (att : ℕ) : Except RecError (List (ℕ × ℝ)) :=
  match selectCols S.i_mat targets with
  | Except.error e => Except.error e
  | Except.ok selected =>
    let u := recommendUserVec S.n_user d.u_index d.user d.others
    let Y := selected.map fun c => u ++ c
    let Yp := Y.map fun c => matVecCols S.R c
    let Yn := Yp.map l2normalizeList
    match S.U with
    | none => Except.error RecError.noBasis
    | some Ucols =>
      let scores := Yn.map fun y => l2normList (residualVec Ucols y)
      Except.ok (scores2recos scores targets att)

/-- A context description with one item-context dimension and no user/other
context, used for concrete runs. -/
def ctxItem : Contexts := ⟨0, 0, 1⟩

/-- The fresh model for `ctxItem` with `k = 1`, `ℓ = 1` and a concrete
initial projection draw (one column, since `p0 = 1`). -/
def stateFresh : ModelState ℚ := clearState ctxItem 1 1 [[0]]

/-- An event whose user key is present (and new) but whose item key is
absent. -/
def eventNoItemKey : RawEvent ℚ := ⟨some 0, none, none, none, none⟩

/-- A complete registration event for user 0 / item 0 with item context
vector `[5]`. -/
def eventItem5 : RawEvent ℚ := ⟨some 0, some 0, some [], some [], some [5]⟩

/-- A state in which user 0 and item 0 are already registered (as reached
from `stateFresh` by registering both entities and running one update). -/
def stateReg : ModelState ℚ :=
  ⟨1, [0], 1, [0], 3, [[0], [0], [0]], [[0, 5]], [[0]], some [[1]]⟩

/-- The same registered state over `ℝ`, for recommendation requests. -/
def stateRegR : ModelState ℝ :=
  ⟨1, [0], 1, [0], 3, [[0], [0], [0]], [[0, 5]], [[0]], some [[1]]⟩

/-- A complete event for user 0 / item 0 over `ℝ`. -/
def eventFullR : FullEvent ℝ := ⟨0, 0, [], [], [5]⟩

/-- A projection matrix with the declared `k = 40` rows whose row sums
vanish: every row is `(1, -1)`.  Any real matrix is in the support of the
i.i.d. Gaussian draw of `R`. -/
def cexR : Matrix (Fin 40) (Fin 2) ℝ :=
  Matrix.of fun _ j => if j = 0 then 1 else -1

/-- A feature vector in the kernel of `cexR`:
`assembleFeature 1 0 [1] [] 0 0 [] = [1, 1]` (user-identity one followed by
a user-context entry equal to one). -/
def cexX : Fin 2 → ℝ := fun _ => 1

/-- Inserting a column always grows the width by exactly one, including when
the offset is past the end (numpy slices clamp). -/
theorem insertAt_length {β : Type} (xs : List β) (pos : ℕ) (x : β) :
    (insertAt xs pos x).length = xs.length + 1 := by
  simp [insertAt]
  omega

/-- Every column of `insertAt xs pos x` is a column of `xs` or the inserted
column. -/
theorem mem_insertAt {β : Type} {c x : β} {xs : List β} {pos : ℕ}
    (h : c ∈ insertAt xs pos x) : c ∈ xs ∨ c = x := by
  simp only [insertAt, List.append_assoc, List.mem_append, List.mem_singleton] at h
  rcases h with h | h | h
  · exact Or.inl (List.take_subset _ _ h)
  · exact Or.inr h
  · exact Or.inl (List.drop_subset _ _ h)

/-- Setting an index inside the left part of an append acts on the left
part. -/
theorem set_append_left {β : Type} (a b : List β) (i : ℕ) (x : β)
    (h : i < a.length) : (a ++ b).set i x = a.set i x ++ b := by
  induction a generalizing i with
  | nil => simp at h
  | cons y ys ih =>
    cases i with
    | zero => rfl
    | succ n =>
      have hn : n < ys.length := by simpa using h
      show y :: ((ys ++ b).set n x) = y :: (ys.set n x ++ b)
      rw [ih n hn]

/-- Inserting a zero at the end of the zero prefix extends the prefix. -/
theorem insertAt_replicate_append {β : Type} (m : ℕ) (z : β) (v : List β) :
    insertAt (List.replicate m z ++ v) m z = List.replicate (m + 1) z ++ v := by
  have h1 : (List.replicate m z ++ v).take m = List.replicate m z :=
    List.take_left' (List.length_replicate m z)
  have h2 : (List.replicate m z ++ v).drop m = v :=
    List.drop_left' (List.length_replicate m z)
  rw [insertAt, h1, h2, ← List.replicate_succ' m z]

/-- The squared Frobenius norm is the trace of `Bᵀ * B`. -/
theorem frobSq_eq_trace {m n : ℕ} (B : Matrix (Fin m) (Fin n) ℝ) :
    frobSq B = Matrix.trace (Bᵀ * B) := by
  unfold frobSq Matrix.trace
  simp only [Matrix.diag_apply, Matrix.mul_apply, Matrix.transpose_apply, pow_two]
  exact Finset.sum_comm

/-- Frobenius norm of `U * diagonal d` for `U` with orthonormal columns. -/
theorem frobSq_mul_diagonal {kk l : ℕ} (U : Matrix (Fin kk) (Fin l) ℝ)
    (d : Fin l → ℝ) (hU : Uᵀ * U = 1) :
    frobSq (U * Matrix.diagonal d) = ∑ i, d i ^ 2 := by
  rw [frobSq_eq_trace, Matrix.transpose_mul, Matrix.diagonal_transpose,
    Matrix.mul_assoc, ← Matrix.mul_assoc Uᵀ U, hU, one_mul,
    Matrix.diagonal_mul_diagonal, Matrix.trace_diagonal]
  simp [pow_two]

/-- Frobenius norm of a matrix given by its reduced SVD factors. -/
theorem frobSq_svd {kk l : ℕ} (U : Matrix (Fin kk) (Fin l) ℝ)
    (s : Fin l → ℝ) (V : Matrix (Fin l) (Fin l) ℝ)
    (hU : Uᵀ * U = 1) (hV : V * Vᵀ = 1) :
    frobSq (U * Matrix.diagonal s * V) = ∑ i, s i ^ 2 := by
  rw [frobSq_eq_trace, Matrix.transpose_mul, Matrix.transpose_mul,
    Matrix.diagonal_transpose]
  simp only [Matrix.mul_assoc]
  rw [← Matrix.mul_assoc Uᵀ U, hU, one_mul]
  rw [Matrix.trace_mul_comm]
  simp only [Matrix.mul_assoc]
  rw [hV, Matrix.mul_one, Matrix.diagonal_mul_diagonal, Matrix.trace_diagonal]
  simp [pow_two]

/-- One registration call with a complete event preserves the bookkeeping
invariant. -/
theorem regInvariant_checkEvent {α : Type} [Zero α] [DecidableEq α]
    (ctx : Contexts) (kk : ℕ) (S : ModelState α)
    (e : RawEvent α × List α × List α)
    (hc : completeRegCols kk e) (hS : RegInvariant ctx kk S) :
    RegInvariant ctx kk (checkEvent ctx S e.1 e.2.1 e.2.2).1 := by
  obtain ⟨⟨hu, hi, hv⟩, hcu, hci⟩ := hc
  obtain ⟨u, hu⟩ := Option.isSome_iff_exists.mp hu
  obtain ⟨i, hi⟩ := Option.isSome_iff_exists.mp hi
  obtain ⟨iv, hv⟩ := Option.isSome_iff_exists.mp hv
  obtain ⟨hlen, hp, hrows⟩ := hS
  have huser : RegInvariant ctx kk (registerUser S u e.2.1) := by
    rw [registerUser]
    by_cases hmem : u ∈ S.users
    · rw [if_pos hmem]; exact ⟨hlen, hp, hrows⟩
    · rw [if_neg hmem]
      refine ⟨?_, ?_, ?_⟩
      · simp only [insertAt_length, hlen]
      · simp only [hp]; omega
      · intro c hcmem
        rcases mem_insertAt hcmem with h | h
        · exact hrows c h
        · rw [h]; exact hcu
  obtain ⟨hlen1, hp1, hrows1⟩ := huser
  simp only [checkEvent, hu, hi, hv]
  by_cases hmem : i ∈ (registerUser S u e.2.1).items
  · rw [if_pos hmem]; exact ⟨hlen1, hp1, hrows1⟩
  · rw [if_neg hmem]
    refine ⟨?_, ?_, ?_⟩
    · simp only [registerItemVec, registerItemCore, insertAt_length, hlen1]
    · simp only [registerItemVec, registerItemCore, hp1]; omega
    · intro c hcmem
      simp only [registerItemVec, registerItemCore] at hcmem
      rcases mem_insertAt hcmem with h | h
      · exact hrows1 c h
      · rw [h]; exact hci

/-- The bookkeeping invariant is preserved along any sequence of complete
registration calls. -/
theorem regInvariant_runRegs {α : Type} [Zero α] [DecidableEq α]
    (ctx : Contexts) (kk : ℕ) (S : ModelState α)
    (evs : List (RawEvent α × List α × List α))
    (hevs : ∀ e ∈ evs, completeRegCols kk e) (hS : RegInvariant ctx kk S) :
    RegInvariant ctx kk (runRegs ctx S evs) := by
  induction evs generalizing S with
  | nil => exact hS
  | cons e es ih =>
    exact ih _ (fun x hx => hevs x (List.mem_cons_of_mem e hx))
      (regInvariant_checkEvent ctx kk S e (hevs e (List.mem_cons_self e es)) hS)

/-- Registering a user does not touch `i_mat` or `n_item`, so the shape
invariant of the item feature store is preserved. -/
theorem imatShaped_registerUser {α : Type} [Zero α] (S : ModelState α)
    (u : ℕ) (colU : List α) (hS : imatShaped S) :
    imatShaped (registerUser S u colU) := by
  rw [registerUser]
  by_cases hmem : u ∈ S.users
  · rw [if_pos hmem]; exact hS
  · rw [if_neg hmem]; exact hS

/-- Storing a new item's column keeps every column of `i_mat` of the form
`zeros(n_item) ++ context`: the inserted zero row lands exactly at the end
of each existing zero prefix, and the new column is built that way. -/
theorem imatShaped_registerItem {α : Type} [Zero α] [DecidableEq α]
    (ctx : Contexts) (S : ModelState α) (i : ℕ) (iv colI : List α)
    (hS : imatShaped S) :
    imatShaped (registerItemVec ctx (registerItemCore S i) iv colI) := by
  intro c hc
  simp only [registerItemVec, registerItemCore] at hc ⊢
  by_cases hz : imatSizeZero S.i_mat
  · rw [if_pos hz] at hc
    rcases List.mem_singleton.mp hc with rfl
    exact ⟨iv, rfl⟩
  · rw [if_neg hz] at hc
    rcases List.mem_append.mp hc with h | h
    · obtain ⟨c0, hc0, rfl⟩ := List.mem_map.mp h
      obtain ⟨v, rfl⟩ := hS c0 hc0
      refine ⟨v, ?_⟩
      simpa using insertAt_replicate_append S.n_item (0 : α) v
    · rcases List.mem_singleton.mp h with rfl
      exact ⟨iv, rfl⟩

/-- One complete registration call preserves the shape invariant of the
item feature store. -/
theorem imatShaped_checkEvent {α : Type} [Zero α] [DecidableEq α]
    (ctx : Contexts) (S : ModelState α) (d : RawEvent α) (colU colI : List α)
    (hc : completeReg d) (hS : imatShaped S) :
    imatShaped (checkEvent ctx S d colU colI).1 := by
  obtain ⟨hu, hi, hv⟩ := hc
  obtain ⟨u, hu⟩ := Option.isSome_iff_exists.mp hu
  obtain ⟨i, hi⟩ := Option.isSome_iff_exists.mp hi
  obtain ⟨iv, hv⟩ := Option.isSome_iff_exists.mp hv
  have h1 : imatShaped (registerUser S u colU) :=
    imatShaped_registerUser S u colU hS
  simp only [checkEvent, hu, hi, hv]
  by_cases hmem : i ∈ (registerUser S u colU).items
  · rw [if_pos hmem]; exact h1
  · rw [if_neg hmem]
    exact imatShaped_registerItem ctx (registerUser S u colU) i iv colI h1

/-- The shape invariant of the item feature store holds along any sequence
of complete registration calls. -/
theorem imatShaped_runRegs {α : Type} [Zero α] [DecidableEq α]
    (ctx : Contexts) (S : ModelState α)
    (evs : List (RawEvent α × List α × List α))
    (hevs : ∀ e ∈ evs, completeReg e.1) (hS : imatShaped S) :
    imatShaped (runRegs ctx S evs) := by
  induction evs generalizing S with
  | nil => exact hS
  | cons e es ih =>
    exact ih _ (fun x hx => hevs x (List.mem_cons_of_mem e hx))
      (imatShaped_checkEvent ctx S e.1 e.2.1 e.2.2
        (hevs e (List.mem_cons_self e es)) hS)

/-- Selecting columns fails with `IndexError` whenever some requested slot
is out of range. -/
theorem selectCols_error {α : Type} (cols : List (List α)) (ts : List ℕ)
    (h : ∃ t ∈ ts, cols.length ≤ t) :
    selectCols cols ts = Except.error RecError.indexError := by
  induction ts with
  | nil => simp at h
  | cons t ts ih =>
    obtain ⟨w, hw, hlen⟩ := h
    by_cases hx : t < cols.length
    · have hwts : w ∈ ts := by
        rcases List.mem_cons.mp hw with h1 | h1
        · omega
        · exact h1
      simp only [selectCols]
      rw [dif_pos hx, ih ⟨w, hwts, hlen⟩]
    · simp only [selectCols]
      rw [dif_neg hx]

/-- C7: for every sequence of (complete) registration events starting from a
fresh model, the projection matrix `R` has exactly `p0 + u + i` columns,
where `p0 = |user_ctx| + |other_ctx| + |item_ctx|` is the initial feature
width and `u`, `i` are the numbers of registered users and items; `R` always
has `p` columns of height `k`, and `p` grows by exactly one per newly
allocated slot. -/
theorem C7_R_has_p0_plus_u_plus_i_columns {α : Type} [Zero α] [DecidableEq α]
    (ctx : Contexts) (kk ell : ℕ) (R0 : List (List α))
    (evs : List (RawEvent α × List α × List α))
    (hR0len : R0.length = ctx.user + ctx.others + ctx.item)
    (hR0rows : ∀ c ∈ R0, c.length = kk)
    (hevs : ∀ e ∈ evs, completeRegCols kk e) :
    (runRegs ctx (clearState ctx kk ell R0) evs).R.length
      = ctx.user + ctx.others + ctx.item
        + (runRegs ctx (clearState ctx kk ell R0) evs).n_user
        + (runRegs ctx (clearState ctx kk ell R0) evs).n_item
    ∧ (runRegs ctx (clearState ctx kk ell R0) evs).R.length
        = (runRegs ctx (clearState ctx kk ell R0) evs).p
    ∧ ∀ c ∈ (runRegs ctx (clearState ctx kk ell R0) evs).R, c.length = kk := by
  have h0 : RegInvariant ctx kk (clearState ctx kk ell R0) := by
    refine ⟨?_, ?_, hR0rows⟩ <;> simp [clearState, hR0len]
  obtain ⟨h1, h2, h3⟩ := regInvariant_runRegs ctx kk _ evs hevs h0
  exact ⟨by rw [h1, h2], h1, h3⟩

/-- Witness for C7: a concrete run over `ℚ` with `k = 1`, context sizes
`(1, 1, 1)` and one registration event for a new user and a new item. -/
theorem C7_witness :
    (runRegs ⟨1, 1, 1⟩ (clearState ⟨1, 1, 1⟩ 1 1 [[0], [0], [0]])
        [((⟨some 0, some 0, some [1], some [2], some [3]⟩ : RawEvent ℚ),
          [4], [5])]).R.length
      = 1 + 1 + 1
        + (runRegs ⟨1, 1, 1⟩ (clearState ⟨1, 1, 1⟩ 1 1 [[0], [0], [0]])
            [((⟨some 0, some 0, some [1], some [2], some [3]⟩ : RawEvent ℚ),
              [4], [5])]).n_user
        + (runRegs ⟨1, 1, 1⟩ (clearState ⟨1, 1, 1⟩ 1 1 [[0], [0], [0]])
            [((⟨some 0, some 0, some [1], some [2], some [3]⟩ : RawEvent ℚ),
              [4], [5])]).n_item
    ∧ (runRegs ⟨1, 1, 1⟩ (clearState ⟨1, 1, 1⟩ 1 1 [[0], [0], [0]])
        [((⟨some 0, some 0, some [1], some [2], some [3]⟩ : RawEvent ℚ),
          [4], [5])]).R.length
      = (runRegs ⟨1, 1, 1⟩ (clearState ⟨1, 1, 1⟩ 1 1 [[0], [0], [0]])
          [((⟨some 0, some 0, some [1], some [2], some [3]⟩ : RawEvent ℚ),
            [4], [5])]).p
    ∧ ∀ c ∈ (runRegs ⟨1, 1, 1⟩ (clearState ⟨1, 1, 1⟩ 1 1 [[0], [0], [0]])
        [((⟨some 0, some 0, some [1], some [2], some [3]⟩ : RawEvent ℚ),
          [4], [5])]).R, c.length = 1 :=
  C7_R_has_p0_plus_u_plus_i_columns ⟨1, 1, 1⟩ 1 1 [[0], [0], [0]] _
    (by decide) (by decide)
    (by
      intro e he
      rw [List.mem_singleton.mp he]
      exact ⟨⟨rfl, rfl, rfl⟩, rfl, rfl⟩)

/-- C8: a registration call whose user key and item key are both already
registered returns the entire model state unchanged and raises nothing. -/
theorem C8_register_idempotent {α : Type} [Zero α] [DecidableEq α]
    (ctx : Contexts) (S : ModelState α) (d : RawEvent α) (colU colI : List α)
    (u i : ℕ) (hu : d.u_index = some u) (humem : u ∈ S.users)
    (hi : d.i_index = some i) (himem : i ∈ S.items) :
    checkEvent ctx S d colU colI = (S, none) := by
  simp [checkEvent, hu, hi, registerUser, humem, himem]

/-- Witness for C8: registering user 0 / item 0 on a state where both are
already registered leaves the state untouched. -/
theorem C8_witness :
    checkEvent ⟨0, 0, 1⟩ stateReg (⟨some 0, some 0, none, none, none⟩ : RawEvent ℚ)
        [] [] = (stateReg, none) :=
  C8_register_idempotent ⟨0, 0, 1⟩ stateReg _ [] [] 0 0 rfl (by decide) rfl
    (by decide)

/-- Counterexample for C4: an event with a (new) user key but no item key is
rejected only after the user registration has mutated the state — `n_user`
has become 1 and the state differs from the pre-call state, so registration
is partial, contradicting `rejected before any state mutation`. -/
theorem C4_counterexample :
    (checkEvent ctxItem stateFresh eventNoItemKey [0] [0]).2
        = some RegError.missingItemKey
    ∧ (checkEvent ctxItem stateFresh eventNoItemKey [0] [0]).1 ≠ stateFresh
    ∧ (checkEvent ctxItem stateFresh eventNoItemKey [0] [0]).1.n_user = 1
    ∧ stateFresh.n_user = 0 := by decide

/-- C4 (amended): an event missing the user key is rejected before any state
mutation; but when the user key is present, a missing item key (or item
context vector) is raised only after the user-side — and for a missing item
vector also the item-registry — mutations have occurred, so partial
registration is possible. -/
theorem C4_missing_user_key_rejected_unmutated {α : Type} [Zero α]
    [DecidableEq α] (ctx : Contexts) (S : ModelState α) (d : RawEvent α)
    (colU colI : List α) (hu : d.u_index = none) :
    checkEvent ctx S d colU colI = (S, some RegError.missingUserKey) := by
  simp [checkEvent, hu]

/-- Witness for C4 (amended): a wholly empty event is rejected with the
state unchanged. -/
theorem C4_witness :
    checkEvent ctxItem stateFresh (⟨none, none, none, none, none⟩ : RawEvent ℚ)
        [0] [0] = (stateFresh, some RegError.missingUserKey) :=
  C4_missing_user_key_rejected_unmutated ctxItem stateFresh _ [0] [0] rfl

/-- Counterexample for C2: registering item 0 with context vector `[5]`
stores the column `[0, 5]` — the identity entry (position 0, the item's own
slot) is `0`, not `1`, no entry of the column equals `1` at all, and the
column is not the spec's `context ++ one-hot` column `[5, 1]`. -/
theorem C2_counterexample :
    (checkEvent ctxItem stateFresh eventItem5 [0] [0]).1.i_mat = [[0, 5]]
    ∧ (∀ c ∈ (checkEvent ctxItem stateFresh eventItem5 [0] [0]).1.i_mat,
        ∀ x ∈ c, x ≠ (1 : ℚ))
    ∧ (checkEvent ctxItem stateFresh eventItem5 [0] [0]).1.i_mat
        ≠ [[5, 1]] := by decide

/-- C2 (amended): every column the Item Feature Store holds is the item's
identity block — `n_item` entries, all of them `0`, including the item's own
slot, which is never set to `1` — followed by that item's static context
vector; the column stored at the moment an item is registered is exactly
`zeros(n_item) ++ context`. -/
theorem C2_imat_identity_block_zero {α : Type} [Zero α] [DecidableEq α] :
    (∀ (ctx : Contexts) (kk ell : ℕ) (R0 : List (List α))
        (evs : List (RawEvent α × List α × List α)),
        (∀ e ∈ evs, completeReg e.1) →
        imatShaped (runRegs ctx (clearState ctx kk ell R0) evs))
    ∧ ∀ (ctx : Contexts) (S : ModelState α) (iv colI : List α),
        (registerItemVec ctx S iv colI).i_mat.getLast?
          = some (List.replicate S.n_item 0 ++ iv) := by
  constructor
  · intro ctx kk ell R0 evs hevs
    refine imatShaped_runRegs ctx _ evs hevs ?_
    intro c hc
    simp [clearState] at hc
  · intro ctx S iv colI
    simp only [registerItemVec]
    by_cases hz : imatSizeZero S.i_mat
    · rw [if_pos hz]; rfl
    · rw [if_neg hz]
      exact List.getLast?_concat _

/-- Witness for C2 (amended): the invariant evaluated on the concrete run
registering item 0 with context `[5]`, and the stored column of that
registration. -/
theorem C2_witness :
    imatShaped (runRegs ctxItem (clearState ctxItem 1 1 [[0]])
        [((⟨some 0, some 0, some [], some [], some [5]⟩ : RawEvent ℚ),
          [0], [0])])
    ∧ (registerItemVec ctxItem
        (registerItemCore (clearState ctxItem 1 1 [[(0 : ℚ)]]) 0) [5]
          [0]).i_mat.getLast?
      = some (List.replicate 1 0 ++ [5]) :=
  ⟨(C2_imat_identity_block_zero (α := ℚ)).1 ctxItem 1 1 [[0]] _
      (by
        intro e he
        rw [List.mem_singleton.mp he]
        exact ⟨rfl, rfl, rfl⟩),
    (C2_imat_identity_block_zero (α := ℚ)).2 ctxItem _ [5] [0]⟩

/-- Counterexample for C3: with one user (index 0, no user context), no
other context, and one item (index 0, context `[5]`), the update step
assembles `[1, 1, 5]` — user one-hot, then item one-hot, then item context —
whereas the spec's layout `[user one-hot][user ctx][others][item ctx]`
`[item one-hot]` would give `[1, 5, 1]`. -/
theorem C3_counterexample :
    assembleFeature (α := ℚ) 1 0 [] [] 1 0 [5] = [1, 1, 5]
    ∧ specAssembleFeature (α := ℚ) 1 0 [] [] 1 0 [5] = [1, 5, 1]
    ∧ assembleFeature (α := ℚ) 1 0 [] [] 1 0 [5]
        ≠ specAssembleFeature (α := ℚ) 1 0 [] [] 1 0 [5] := by decide

/-- C3 (amended): the full feature vector assembled by update, and the
per-candidate column stacked by recommend, follow the fixed block order
`[user-identity one-hot][user-context][other-context][item-identity]`
`[item-context]` — the item-identity block precedes the item-context block
(in recommend the item-identity entries taken from `i_mat` are all zero,
see C2). -/
theorem C3_item_identity_precedes_item_context {α : Type} [Zero α] [One α]
    (nUser uIdx : ℕ) (uCtx oCtx : List α) (nItem iIdx : ℕ) (iCtx : List α)
    (hu : uIdx < nUser) (hi : iIdx < nItem) :
    assembleFeature nUser uIdx uCtx oCtx nItem iIdx iCtx
      = ((List.replicate nUser 0).set uIdx 1 ++ uCtx) ++ oCtx
        ++ ((List.replicate nItem 0).set iIdx 1 ++ iCtx)
    ∧ recommendUserVec nUser uIdx uCtx oCtx
      = (List.replicate nUser 0).set uIdx 1 ++ uCtx ++ oCtx := by
  have hu' : uIdx < (List.replicate nUser (0 : α)).length := by simpa using hu
  have hi' : iIdx < (List.replicate nItem (0 : α)).length := by simpa using hi
  constructor
  · rw [assembleFeature, set_append_left _ _ _ _ hu', set_append_left _ _ _ _ hi']
  · rw [recommendUserVec,
      set_append_left (List.replicate nUser 0 ++ uCtx) oCtx uIdx 1
        (by simp; omega),
      set_append_left _ _ _ _ hu']

/-- Witness for C3 (amended): the block decomposition at a concrete
instance. -/
theorem C3_witness :
    assembleFeature (α := ℚ) 1 0 [2] [3] 1 0 [4]
      = ((List.replicate 1 0).set 0 1 ++ [2]) ++ [3]
        ++ ((List.replicate 1 0).set 0 1 ++ [4])
    ∧ recommendUserVec (α := ℚ) 1 0 [2] [3]
      = (List.replicate 1 0).set 0 1 ++ [2] ++ [3] :=
  C3_item_identity_precedes_item_context 1 0 [2] [3] 1 0 [4]
    (by decide) (by decide)

/-- C1 (amended): a recommendation request containing any target item slot
that was never registered (an index with no column in `i_mat`) fails with an
`IndexError` at the candidate-selection step — the slot is not excluded from
scoring, and no (empty or otherwise) result is returned. -/
theorem C1_unknown_target_raises (S : ModelState ℝ) (d : FullEvent ℝ)
    (targets : List ℕ) (att : ℕ)
    (h : ∃ t ∈ targets, S.i_mat.length ≤ t) :
    recommend S d targets att = Except.error RecError.indexError := by
  rw [recommend, selectCols_error S.i_mat targets h]

/-- Witness for C1 (amended): requesting the unregistered slot 2 on a model
that knows only item 0 raises `IndexError`. -/
theorem C1_witness :
    recommend stateRegR eventFullR [2] 5 = Except.error RecError.indexError :=
  C1_unknown_target_raises stateRegR eventFullR [2] 5
    ⟨2, by simp, by simp [stateRegR]⟩

/-- Counterexample for C1: on a model that has registered exactly item 0,
the request for the single unknown slot 1 — i.e. none of the targets is
known — raises `IndexError` instead of returning the empty list (or any
`ok` result at all). -/
theorem C1_counterexample :
    recommend stateRegR eventFullR [1] 10 = Except.error RecError.indexError
    ∧ ¬ ∃ res, recommend stateRegR eventFullR [1] 10 = Except.ok res := by
  have h : recommend stateRegR eventFullR [1] 10
      = Except.error RecError.indexError := by
    rw [recommend, selectCols_error stateRegR.i_mat [1]
      ⟨1, by simp, by simp [stateRegR]⟩]
  refine ⟨h, ?_⟩
  rintro ⟨res, hres⟩
  rw [h] at hres
  exact Except.noConfusion hres

/-- C10: on a freshly constructed (or cleared) model, on which no update has
ever run, every call to recommend fails: with a non-empty target list the
candidate selection on the empty `i_mat` raises, and with an empty target
list the read of the never-assigned basis `self.U` raises. -/
theorem C10_recommend_fails_without_update (ctx : Contexts) (kk ell : ℕ)
    (R0 : List (List ℝ)) (d : FullEvent ℝ) (targets : List ℕ) (att : ℕ) :
    ∃ e, recommend (clearState ctx kk ell R0) d targets att
      = Except.error e := by
  cases targets with
  | nil =>
    exact ⟨RecError.noBasis, rfl⟩
  | cons t ts =>
    refine ⟨RecError.indexError, ?_⟩
    rw [recommend, selectCols_error _ _ ⟨t, List.mem_cons_self t ts, ?_⟩]
    simp [clearState]

/-- C5: for any update in which `δ = s[ℓ-1]² > 0`, the squared Frobenius
norm of `B` immediately after the shrink step (`B = U · diag(shrunk s)`) is
non-increasing relative to its value immediately before the shrink step,
where `B-before = U · diag(s) · V` is the reduced SVD computed by the
update (`U` with orthonormal columns, `V` orthogonal, `s` the non-negative
singular values sorted non-increasingly). -/
theorem C5_shrink_frobenius_nonincreasing {kk l : ℕ}
    (B U : Matrix (Fin kk) (Fin (l + 1)) ℝ)
    (V : Matrix (Fin (l + 1)) (Fin (l + 1)) ℝ) (s : Fin (l + 1) → ℝ)
    (hU : Uᵀ * U = 1) (hV : V * Vᵀ = 1)
    (hB : B = U * Matrix.diagonal s * V)
    (hmono : ∀ i j : Fin (l + 1), i ≤ j → s j ≤ s i)
    (hpos : ∀ i, 0 ≤ s i)
    (hdelta : 0 < s (Fin.last l) ^ 2) :
    frobSq (shrinkReconstruct U s) ≤ frobSq B := by
  have hlow : ∀ i, s (Fin.last l) ^ 2 ≤ s i ^ 2 := fun i =>
    pow_le_pow_left₀ (hpos _) (hmono i (Fin.last l) (Fin.le_last i)) 2
  have hA : frobSq (shrinkReconstruct U s)
      = ∑ i, (s i ^ 2 - s (Fin.last l) ^ 2) := by
    rw [shrinkReconstruct, frobSq_mul_diagonal U (shrunkSV s) hU]
    refine Finset.sum_congr rfl fun i _ => ?_
    simp only [shrunkSV]
    exact Real.sq_sqrt (sub_nonneg.mpr (hlow i))
  have hBfr : frobSq B = ∑ i, s i ^ 2 := by
    rw [hB]
    exact frobSq_svd U s V hU hV
  rw [hA, hBfr]
  exact Finset.sum_le_sum fun i _ => sub_le_self _ (sq_nonneg _)

/-- Witness for C5: the one-dimensional instance `B = U = V = 1`, `s ≡ 1`,
where `δ = 1 > 0`. -/
theorem C5_witness :
    frobSq (shrinkReconstruct (1 : Matrix (Fin 1) (Fin 1) ℝ) fun _ => 1)
      ≤ frobSq ((1 : Matrix (Fin 1) (Fin 1) ℝ)
          * Matrix.diagonal (fun _ => 1) * 1) :=
  C5_shrink_frobenius_nonincreasing _ 1 1 (fun _ => 1) (by simp) (by simp)
    rfl (fun i j _ => le_refl 1) (fun i => zero_le_one) (by norm_num)

/-- C6 (amended): the projected observation that update writes into `B` has
L2 norm 1 whenever the projection `R·x` is non-zero; sklearn's `normalize`
returns a zero vector unchanged, so a zero projection is inserted with norm
0 (see the counterexample). -/
theorem C6_projected_observation_unit_norm {kk pn : ℕ}
    (R : Matrix (Fin kk) (Fin pn) ℝ) (x : Fin pn → ℝ)
    (hx : R.mulVec x ≠ 0) :
    l2norm (projectNormalize R x) = 1 := by
  obtain ⟨i0, hi0⟩ := Function.ne_iff.mp hx
  have hsum : 0 < l2normSq (R.mulVec x) := by
    refine Finset.sum_pos' (fun i _ => sq_nonneg _) ⟨i0, Finset.mem_univ _, ?_⟩
    exact lt_of_le_of_ne (sq_nonneg _) (Ne.symm (pow_ne_zero 2 hi0))
  have hnorm : 0 < l2norm (R.mulVec x) := Real.sqrt_pos.mpr hsum
  have hsq : l2norm (R.mulVec x) ^ 2 = l2normSq (R.mulVec x) :=
    Real.sq_sqrt (le_of_lt hsum)
  rw [projectNormalize, l2normalize, if_neg (ne_of_gt hnorm)]
  rw [l2norm, l2normSq]
  have hdiv : ∑ i, (R.mulVec x i / l2norm (R.mulVec x)) ^ 2
      = l2normSq (R.mulVec x) / l2norm (R.mulVec x) ^ 2 := by
    rw [l2normSq, Finset.sum_div]
    exact Finset.sum_congr rfl fun i _ => div_pow _ _ 2
  rw [hdiv, hsq, div_self (ne_of_gt hsum), Real.sqrt_one]

/-- Witness for C6 (amended): the identity projection of the all-ones
vector. -/
theorem C6_witness :
    l2norm (projectNormalize (1 : Matrix (Fin 1) (Fin 1) ℝ) fun _ => 1)
      = 1 :=
  C6_projected_observation_unit_norm 1 (fun _ => 1) (by
    rw [Matrix.one_mulVec]
    intro h
    have h0 := congrFun h 0
    norm_num at h0)

/-- Counterexample for C6: `cexR` has the declared `k = 40` rows and maps
the feature vector `cexX = assembleFeature 1 0 [1] [] 0 0 []` to zero;
sklearn's `normalize` leaves the zero vector unchanged, so the observation
written into `B` has L2 norm 0, not 1. -/
theorem C6_counterexample :
    l2norm (projectNormalize cexR cexX) = 0
    ∧ l2norm (projectNormalize cexR cexX) ≠ 1 := by
  have h0 : cexR.mulVec cexX = 0 := by
    funext i
    simp [cexR, cexX, Matrix.mulVec, Matrix.dotProduct, Fin.sum_univ_two]
  have hz : l2norm (0 : Fin 40 → ℝ) = 0 := by
    simp [l2norm, l2normSq]
  have hmain : l2norm (projectNormalize cexR cexX) = 0 := by
    rw [projectNormalize, h0, l2normalize, if_pos hz, hz]
  exact ⟨hmain, by rw [hmain]; norm_num⟩

/-- C9: after the shrink-and-reconstruct step of any update, the column of
`B` at index `ℓ-1` is exactly zero (the smallest retained singular value is
shrunk to `sqrt(s² - s²) = 0`), `B` has at most `ℓ-1` non-zero columns, and
the zero-column search of the next update therefore finds a zero column, so
the no-zero-column fallback is never taken after an update. -/
theorem C9_last_column_zero_after_shrink {kk l : ℕ}
    (U : Matrix (Fin kk) (Fin (l + 1)) ℝ) (s : Fin (l + 1) → ℝ) :
    (∀ i, shrinkReconstruct U s i (Fin.last l) = 0)
    ∧ ¬ fallbackUsed (shrinkReconstruct U s)
    ∧ ∃ T : Finset (Fin (l + 1)), T.card ≤ l ∧
        ∀ j ∉ T, isZeroCol (shrinkReconstruct U s) j := by
  have hcol : ∀ i, shrinkReconstruct U s i (Fin.last l) = 0 := by
    intro i
    rw [shrinkReconstruct, Matrix.mul_diagonal]
    simp [shrunkSV]
  refine ⟨hcol, fun h => h (Fin.last l) hcol, ?_⟩
  refine ⟨Finset.univ.erase (Fin.last l), ?_, ?_⟩
  · rw [Finset.card_erase_of_mem (Finset.mem_univ _), Finset.card_univ,
      Fintype.card_fin]
    omega
  · intro j hj
    have hjl : j = Fin.last l := by
      by_contra hne
      exact hj (Finset.mem_erase.mpr ⟨hne, Finset.mem_univ _⟩)
    rw [hjl]
    exact hcol
